import Mathlib

/-!
Verification development for the `fast-rm` recursive file-tree remover.

The Rust sources are shallowly embedded: paths become component lists,
filesystem trees become an inductive type, syscall outcomes are supplied by
explicit oracles, and the concurrent scanner emission is modelled by an
interleaving relation.  Each definition mirrors one function of the source
(`src/path.rs`, `src/queue.rs`, `src/scanner.rs`, `src/deleter.rs`,
`src/removal.rs`, `src/results.rs`); theorems settle the frozen claims.
-/

namespace FastRm

/-- A filesystem path as its list of components (mirrors `std::path::Path`
viewed through its component iterator). -/
abbrev Path := List String

/-- Component-boundary prefix test: `pathLe base p` holds when `base` is a
prefix of `p` on path-component boundaries.  Mirrors Rust
`Path::starts_with(base)` called on `p`. -/
def pathLe : Path → Path → Bool
  | [], _ => true
  | _ :: _, [] => false
  | a :: as, b :: bs => a == b && pathLe as bs

/-- Rust `path_p.starts_with(base)`: `base` is a component-boundary prefix of
`p`. -/
def startsWith (p base : Path) : Bool := pathLe base p

/-- Strict descendant: `q` lies strictly inside directory `d`. -/
def strictUnder (q d : Path) : Prop := pathLe d q = true ∧ q ≠ d

instance (q d : Path) : Decidable (strictUnder q d) := by
  unfold strictUnder; infer_instance

theorem pathLe_refl (p : Path) : pathLe p p = true := by
  induction p with
  | nil => rfl
  | cons a as ih => simp [pathLe, ih]

theorem pathLe_length {d q : Path} (h : pathLe d q = true) :
    d.length ≤ q.length := by
  induction d generalizing q with
  | nil => simp
  | cons a as ih =>
    cases q with
    | nil => simp [pathLe] at h
    | cons b bs =>
      simp only [pathLe, Bool.and_eq_true] at h
      simpa [List.length_cons] using Nat.succ_le_succ (ih h.2)

theorem pathLe_antisymm {d q : Path} (h1 : pathLe d q = true)
    (h2 : pathLe q d = true) : d = q := by
  induction d generalizing q with
  | nil => cases q with
    | nil => rfl
    | cons b bs => simp [pathLe] at h2
  | cons a as ih =>
    cases q with
    | nil => simp [pathLe] at h1
    | cons b bs =>
      simp only [pathLe, Bool.and_eq_true, beq_iff_eq] at h1 h2
      rw [h1.1, ih h1.2 h2.2]

theorem pathLe_append (p s : Path) : pathLe p (p ++ s) = true := by
  induction p with
  | nil => rfl
  | cons a as ih => simp [pathLe, ih]

theorem pathLe_trans {a b c : Path} (h1 : pathLe a b = true)
    (h2 : pathLe b c = true) : pathLe a c = true := by
  induction a generalizing b c with
  | nil => rfl
  | cons x xs ih =>
    cases b with
    | nil => simp [pathLe] at h1
    | cons y ys =>
      cases c with
      | nil => simp [pathLe] at h2
      | cons z zs =>
        simp only [pathLe, Bool.and_eq_true, beq_iff_eq] at h1 h2 ⊢
        exact ⟨h1.1.trans h2.1, ih h1.2 h2.2⟩

/-- Two paths that extend a common parent with distinct child components are
never related by `pathLe` in either direction beyond the parent. -/
theorem pathLe_append_cons_ne {p : Path} {a b : String} {s t : Path}
    (hab : a ≠ b) : pathLe (p ++ a :: s) (p ++ b :: t) = false := by
  induction p with
  | nil => simp [pathLe, hab]
  | cons x xs ih => simp [pathLe, ih]

end FastRm

namespace FastRm

/-! ## Errors and jobs (`src/errors.rs`, `src/queue.rs`) -/

/-- Error kinds of `RemoveError` in `src/errors.rs`.  `PathOverlap` carries the
two offending paths (the source formats them into a message string). -/
inductive RemoveError where
  | MetadataFailed (p : Path)
  | RemoveFailed (p : Path)
  | ReadDirFailed (p : Path)
  | RemoveDirFailed (p : Path)
  | DirEntryFailed (p : Path)
  | UnsupportedType (p : Path)
  | PathOverlap (a b : Path)
  | QueueFull
deriving DecidableEq, Repr

/-- Work item of the deletion queue, `FileJob` in `src/queue.rs`. -/
inductive FileJob where
  | File (p : Path)
  | Symlink (p : Path)
  | EmptyDir (p : Path)
deriving DecidableEq, Repr

/-- The path a job owns. -/
def jobPath : FileJob → Path
  | .File p => p
  | .Symlink p => p
  | .EmptyDir p => p

/-! ## Path sanitizer (`src/path.rs`, `deduplicate_and_check_paths`)

Canonicalization performs filesystem IO; it is abstracted as a function
`canon : Path → Option Path`, where `none` models a failed
`Path::canonicalize` call.  The source then keeps the original path (after a
warning on stderr, which is not modelled). -/

/-- The form a path contributes to the dedup set and output list: its
canonical form, or the original path when canonicalization fails. -/
def canonForm (canon : Path → Option Path) (p : Path) : Path :=
  (canon p).getD p

/-- First phase of `deduplicate_and_check_paths`: canonicalize every path and
deduplicate, preserving first-seen order (the `seen` hash-set plus the
`canonical_paths` vector of the source; both always hold the same elements,
so one accumulator list suffices). -/
def dedupCanonical (canon : Path → Option Path) (paths : List Path) :
    List Path :=
  paths.foldl
    (fun acc p =>
      let c := canonForm canon p
      if acc.contains c then acc else acc ++ [c]) []

/-- Inner loop of the overlap check: compare `x` (at index `i`) against every
later element, in order, reporting the first overlapping pair exactly as the
source does (`path_i.starts_with(path_j)` checked first). -/
def checkAgainst (x : Path) : List Path → Option (Path × Path)
  | [] => none
  | y :: ys =>
    if startsWith x y then some (x, y)
    else if startsWith y x then some (y, x)
    else checkAgainst x ys

/-- The `O(n²)` overlap scan of `deduplicate_and_check_paths`. -/
def checkPairs : List Path → Option (Path × Path)
  | [] => none
  | x :: xs =>
    match checkAgainst x xs with
    | some r => some r
    | none => checkPairs xs

/-- Embedding of `deduplicate_and_check_paths` (`src/path.rs`): canonicalize
and deduplicate, then fail with `PathOverlap` on the first
ancestor/descendant pair, otherwise return the deduplicated list. -/
def deduplicate_and_check_paths (canon : Path → Option Path)
    (paths : List Path) : Except RemoveError (List Path) :=
  match checkPairs (dedupCanonical canon paths) with
  | some (a, b) => .error (.PathOverlap a b)
  | none => .ok (dedupCanonical canon paths)

theorem checkAgainst_eq_none {x : Path} {l : List Path}
    (h : checkAgainst x l = none) :
    ∀ y ∈ l, startsWith x y = false ∧ startsWith y x = false := by
  induction l with
  | nil => intro y hy; cases hy
  | cons z zs ih =>
    intro y hy
    by_cases h1 : startsWith x z = true
    · simp [checkAgainst, h1] at h
    · by_cases h2 : startsWith z x = true
      · simp [checkAgainst, h1, h2] at h
      · simp only [checkAgainst, h1, h2, if_false, Bool.not_eq_true] at h
        rcases List.mem_cons.mp hy with rfl | hy2
        · exact ⟨Bool.not_eq_true _ ▸ h1, Bool.not_eq_true _ ▸ h2⟩
        · exact ih h y hy2

theorem checkPairs_eq_none {l : List Path} (h : checkPairs l = none) :
    ∀ x ∈ l, ∀ y ∈ l, x ≠ y →
      startsWith x y = false ∧ startsWith y x = false := by
  induction l with
  | nil => intro x hx; cases hx
  | cons z zs ih =>
    have hsplit : checkAgainst z zs = none ∧ checkPairs zs = none := by
      cases hz : checkAgainst z zs with
      | some r => simp [checkPairs, hz] at h
      | none => simpa [checkPairs, hz] using h
    intro x hx y hy hxy
    rcases List.mem_cons.mp hx with rfl | hx2
    · rcases List.mem_cons.mp hy with rfl | hy2
      · exact absurd rfl hxy
      · exact checkAgainst_eq_none hsplit.1 y hy2
    · rcases List.mem_cons.mp hy with rfl | hy2
      · exact ⟨(checkAgainst_eq_none hsplit.1 x hx2).2,
          (checkAgainst_eq_none hsplit.1 x hx2).1⟩
      · exact ih hsplit.2 x hx2 y hy2 hxy

/-- Membership is preserved by the dedup phase: every processed form of an
input appears in the output. -/
theorem mem_dedupCanonical (canon : Path → Option Path) (paths : List Path)
    (p : Path) (hp : p ∈ paths.map (canonForm canon)) :
    p ∈ dedupCanonical canon paths := by
  have key : ∀ (ps : List Path) (acc : List Path),
      (∀ q, q ∈ acc ∨ q ∈ ps.map (canonForm canon) →
        q ∈ ps.foldl (fun acc p =>
          let c := canonForm canon p
          if acc.contains c then acc else acc ++ [c]) acc) := by
    intro ps
    induction ps with
    | nil =>
      intro acc q hq
      simpa using hq.resolve_right (by simp)
    | cons r rs ih =>
      intro acc q hq
      have hq2 : q ∈ acc ∨ q = canonForm canon r ∨
          q ∈ rs.map (canonForm canon) := by
        rcases hq with h | h
        · exact Or.inl h
        · rw [List.map_cons] at h
          exact Or.inr (List.mem_cons.mp h)
      simp only [List.foldl_cons]
      by_cases hc : acc.contains (canonForm canon r)
      · simp only [hc, if_true]
        apply ih
        rcases hq2 with h | h | h
        · exact Or.inl h
        · exact Or.inl (h ▸ (by simpa using hc))
        · exact Or.inr h
      · simp only [hc, if_false]
        apply ih
        rcases hq2 with h | h | h
        · exact Or.inl (List.mem_append_left _ h)
        · exact Or.inl (by simp [h])
        · exact Or.inr h
  exact key paths [] p (Or.inr hp)

/--
C7: rejection of overlapping roots.  First part: whenever the processed input
contains two distinct forms, one lying inside the other on component
boundaries, `deduplicate_and_check_paths` fails with a `PathOverlap` error —
regardless of where the two paths sit in the input list.  Second part: any
list it returns is pairwise non-overlapping.
-/
theorem sanitize_overlap_rejected (canon : Path → Option Path)
    (paths : List Path) :
    (∀ P Q, P ∈ paths.map (canonForm canon) → Q ∈ paths.map (canonForm canon) →
      P ≠ Q → startsWith Q P = true →
      ∃ a b, deduplicate_and_check_paths canon paths =
        .error (.PathOverlap a b)) ∧
    (∀ l, deduplicate_and_check_paths canon paths = .ok l →
      ∀ p ∈ l, ∀ q ∈ l, p ≠ q → startsWith p q = false) := by
  constructor
  · intro P Q hP hQ hne hsw
    have hPm := mem_dedupCanonical canon paths P hP
    have hQm := mem_dedupCanonical canon paths Q hQ
    unfold deduplicate_and_check_paths
    cases hcp : checkPairs (dedupCanonical canon paths) with
    | some r =>
      obtain ⟨a, b⟩ := r
      exact ⟨a, b, rfl⟩
    | none =>
      have := (checkPairs_eq_none hcp Q hQm P hPm (Ne.symm hne)).1
      rw [this] at hsw
      cases hsw
  · intro l hl p hp q hq hne
    unfold deduplicate_and_check_paths at hl
    cases hcp : checkPairs (dedupCanonical canon paths) with
    | some r =>
      obtain ⟨a, b⟩ := r
      rw [hcp] at hl
      cases hl
    | none =>
      rw [hcp] at hl
      have hle : l = dedupCanonical canon paths := by
        cases hl
        rfl
      subst hle
      exact (checkPairs_eq_none hcp p hp q hq hne).1

/-- Witness for C7 at a concrete input: sanitizing `[r/a, r/a/b]` fails with a
path-overlap error. -/
theorem sanitize_overlap_rejected_witness :
    ∃ a b, deduplicate_and_check_paths (fun p => some p)
      [["r", "a"], ["r", "a", "b"]] = .error (.PathOverlap a b) :=
  (sanitize_overlap_rejected (fun p => some p)
      [["r", "a"], ["r", "a", "b"]]).1
    ["r", "a"] ["r", "a", "b"] (by decide) (by decide) (by decide) (by decide)

/-- One dedup step of the sanitizer: append the processed form unless it has
been seen already. -/
def dedupStep (acc : List Path) (c : Path) : List Path :=
  if acc.contains c then acc else acc ++ [c]

/-- Reference definition, following the specification text: deduplicate a
list keeping the first occurrence of each element, preserving first-seen
order. -/
def specDedupFirstSeen : List Path → List Path
  | [] => []
  | x :: xs => x :: specDedupFirstSeen (xs.filter (fun y => !(y == x)))
termination_by l => l.length
decreasing_by
  exact Nat.lt_succ_of_le (List.length_filter_le _ _)

theorem dedupCanonical_eq_foldl (canon : Path → Option Path)
    (paths : List Path) :
    dedupCanonical canon paths =
      (paths.map (canonForm canon)).foldl dedupStep [] := by
  rw [List.foldl_map]
  rfl

theorem foldl_dedupStep_eq (l : List Path) :
    ∀ acc : List Path,
      l.foldl dedupStep acc =
        acc ++ specDedupFirstSeen (l.filter (fun y => !acc.contains y)) := by
  induction l with
  | nil => intro acc; simp [specDedupFirstSeen]
  | cons x xs ih =>
    intro acc
    by_cases hc : x ∈ acc
    · have hstep : dedupStep acc x = acc := by simp [dedupStep, hc]
      have hfilter : (x :: xs).filter (fun y => !acc.contains y) =
          xs.filter (fun y => !acc.contains y) := by
        simp [List.filter_cons, hc]
      rw [List.foldl_cons, hstep, hfilter, ih acc]
    · have hstep : dedupStep acc x = acc ++ [x] := by simp [dedupStep, hc]
      have hfilter : (x :: xs).filter (fun y => !acc.contains y) =
          x :: xs.filter (fun y => !acc.contains y) := by
        simp [List.filter_cons, hc]
      rw [List.foldl_cons, hstep, ih (acc ++ [x]), hfilter,
        specDedupFirstSeen]
      have hff : xs.filter (fun y => !(acc ++ [x]).contains y) =
          (xs.filter (fun y => !acc.contains y)).filter
            (fun y => !(y == x)) := by
        rw [List.filter_filter]
        apply List.filter_congr
        intro y _
        by_cases hy : y = x
        · subst hy; simp
        · by_cases hm : y ∈ acc <;> simp [hy, hm]
      rw [hff]
      simp

/-- Every element of the first-seen dedup comes from the input list. -/
theorem mem_specDedupFirstSeen {y : Path} {l : List Path}
    (h : y ∈ specDedupFirstSeen l) : y ∈ l := by
  induction l using specDedupFirstSeen.induct with
  | case1 => simp [specDedupFirstSeen] at h
  | case2 x xs ih =>
    rw [specDedupFirstSeen] at h
    rcases List.mem_cons.mp h with rfl | h2
    · exact List.mem_cons_self _ _
    · exact List.mem_cons_of_mem _ (List.mem_of_mem_filter (ih h2))

theorem specDedupFirstSeen_nodup (l : List Path) :
    (specDedupFirstSeen l).Nodup := by
  induction l using specDedupFirstSeen.induct with
  | case1 => simp [specDedupFirstSeen]
  | case2 x xs ih =>
    rw [specDedupFirstSeen]
    refine List.nodup_cons.mpr ⟨fun hmem => ?_, ih⟩
    have := List.of_mem_filter (mem_specDedupFirstSeen hmem)
    simp at this

/--
C8: the sanitizer canonicalizes every path, falls back to the original path
when canonicalization fails and uses that form for dedup and overlap
checking, and any returned list is exactly the processed input deduplicated
to first occurrences, in first-seen order, with no element twice.
-/
theorem sanitize_canonical_dedup (canon : Path → Option Path)
    (paths l : List Path)
    (h : deduplicate_and_check_paths canon paths = .ok l) :
    l = specDedupFirstSeen (paths.map (canonForm canon)) ∧
    l.Nodup ∧
    (∀ p, canon p = none → canonForm canon p = p) := by
  have hl : l = dedupCanonical canon paths := by
    unfold deduplicate_and_check_paths at h
    cases hcp : checkPairs (dedupCanonical canon paths) with
    | some r =>
      obtain ⟨a, b⟩ := r
      rw [hcp] at h
      cases h
    | none =>
      rw [hcp] at h
      cases h
      rfl
  have hspec : l = specDedupFirstSeen (paths.map (canonForm canon)) := by
    rw [hl, dedupCanonical_eq_foldl, foldl_dedupStep_eq]
    simp
  refine ⟨hspec, ?_, ?_⟩
  · rw [hspec]
    exact specDedupFirstSeen_nodup _
  · intro p hp
    simp [canonForm, hp]

/-- Witness for C8 at a concrete input with one failing canonicalization and
one duplicate. -/
theorem sanitize_canonical_dedup_witness :
    [["c", "a"], ["b"]] =
      specDedupFirstSeen
        ([["a"], ["b"], ["a"]].map
          (canonForm (fun p => if p = ["b"] then none else some ("c" :: p)))) ∧
    List.Nodup [["c", "a"], ["b"]] ∧
    (∀ p, (fun p : Path => if p = ["b"] then none else some ("c" :: p)) p =
        none →
      canonForm (fun p => if p = ["b"] then none else some ("c" :: p)) p = p) :=
  sanitize_canonical_dedup
    (fun p => if p = ["b"] then none else some ("c" :: p))
    [["a"], ["b"], ["a"]] [["c", "a"], ["b"]] rfl

/-! ## Job queue (`src/queue.rs`, `AdaptiveQueue`)

The crossbeam channel is modelled by its buffer contents plus the `closed`
(disconnected) flag.  A blocking `send` fails only when the channel is
disconnected; `try_send` also fails when the buffer is full; a receive
succeeds exactly when the buffer is non-empty (an empty buffer yields
timeout/empty — or disconnect when closed — in all receive flavours).  Each
operation returns the new state together with its success. -/

structure AdaptiveQueue where
  buffer : List FileJob
  capacity : Nat
  closed : Bool
  enqueued : Nat
  dequeued : Nat
deriving DecidableEq, Repr

namespace AdaptiveQueue

/-- `AdaptiveQueue::send`: the source increments `enqueued` first and then
performs the (possibly failing) channel send. -/
def send (q : AdaptiveQueue) (job : FileJob) : AdaptiveQueue × Bool :=
  if q.closed then
    ({ q with enqueued := q.enqueued + 1 }, false)
  else
    ({ q with enqueued := q.enqueued + 1, buffer := q.buffer ++ [job] }, true)

/-- `AdaptiveQueue::try_send`: increments `enqueued` first, then the
non-blocking send that fails on a full or disconnected channel. -/
def try_send (q : AdaptiveQueue) (job : FileJob) : AdaptiveQueue × Bool :=
  if q.closed || decide (q.capacity ≤ q.buffer.length) then
    ({ q with enqueued := q.enqueued + 1 }, false)
  else
    ({ q with enqueued := q.enqueued + 1, buffer := q.buffer ++ [job] }, true)

/-- `AdaptiveQueue::recv_timeout` (also covering `recv` and `try_recv`, which
have the same counter discipline): the job is received first (`?`), and only
then is `dequeued` incremented. -/
def recv_timeout (q : AdaptiveQueue) : AdaptiveQueue × Option FileJob :=
  match q.buffer with
  | [] => (q, none)
  | j :: rest => ({ q with buffer := rest, dequeued := q.dequeued + 1 }, some j)

/-- `AdaptiveQueue::try_recv`, identical counter behaviour. -/
def try_recv (q : AdaptiveQueue) : AdaptiveQueue × Option FileJob :=
  q.recv_timeout

/-- `AdaptiveQueue::depth`: `enqueued - dequeued`, saturating. -/
def depth (q : AdaptiveQueue) : Nat := q.enqueued - q.dequeued

/-- `AdaptiveQueue::is_empty`: `depth() == 0`. -/
def is_empty (q : AdaptiveQueue) : Bool := q.depth == 0

end AdaptiveQueue

/-! ## Deleter worker loop (`src/deleter.rs`, `delete_worker`)

One loop iteration observes one `recv_timeout` outcome: a job, a timeout
(at which instant the worker reads `scanners_done` and `queue.is_empty()`),
or a disconnected channel.  A run of the worker is driven by the finite
trace of outcomes the environment produces. -/

/-- One observed outcome of `queue.recv_timeout(100ms)` inside
`delete_worker`, together with the flag and queue-emptiness snapshot the
worker would read on a timeout. -/
inductive RecvEvent where
  | ok (j : FileJob)
  | timeout (scannersDone : Bool) (queueEmpty : Bool)
  | disconnected
deriving DecidableEq, Repr

/-- Boolean exit test of one loop iteration of `delete_worker`: break on a
disconnected channel, or on a timeout with `scanners_done` set and the queue
empty; keep looping otherwise. -/
def exitStep : RecvEvent → Bool
  | .ok _ => false
  | .timeout d q => d && q
  | .disconnected => true

/-- A `delete_worker` exit point, as the claim phrases it. -/
def exitEvent (e : RecvEvent) : Prop :=
  e = .disconnected ∨ e = .timeout true true

instance (e : RecvEvent) : Decidable (exitEvent e) := by
  unfold exitEvent; infer_instance

theorem exitEvent_iff_exitStep (e : RecvEvent) :
    exitEvent e ↔ exitStep e = true := by
  cases e with
  | ok j => simp [exitEvent, exitStep]
  | timeout d q => cases d <;> cases q <;> simp [exitEvent, exitStep]
  | disconnected => simp [exitEvent, exitStep]

/-- Embedding of the `delete_worker` loop (`src/deleter.rs`): consume the
outcome trace; on a job, act on it and continue; on a timeout, break exactly
when `scanners_done && queue.is_empty()`; on disconnect, break.  The result
is the index of the iteration at which the worker exits, or `none` if the
trace ends with the worker still looping. -/
def delete_worker_run : List RecvEvent → Option Nat
  | [] => none
  | e :: es =>
    if exitStep e then some 0
    else (delete_worker_run es).map (· + 1)

/--
C5: a `delete_worker` exits at iteration `i` exactly when the outcome there
is a disconnect or a timeout with `ScannersDone` set and the queue empty,
and every earlier iteration was not such a state — in particular it keeps
draining while `ScannersDone` is set but the queue is non-empty, and while
the queue is transiently empty with `ScannersDone` unset; if no such state
occurs in the trace the worker never exits.
-/
theorem delete_worker_exit_characterization (evs : List RecvEvent) :
    (∀ i, delete_worker_run evs = some i ↔
      (i < evs.length ∧ exitEvent (evs.getD i (.ok (.File []))) ∧
        ∀ j, j < i → ¬ exitEvent (evs.getD j (.ok (.File []))))) ∧
    (delete_worker_run evs = none ↔ ∀ e ∈ evs, ¬ exitEvent e) := by
  induction evs with
  | nil =>
    refine ⟨fun i => ?_, ?_⟩
    · simp [delete_worker_run]
    · simp [delete_worker_run]
  | cons e es ih =>
    cases he : exitStep e with
    | true =>
      have hee : exitEvent e := (exitEvent_iff_exitStep e).mpr he
      have hrun : delete_worker_run (e :: es) = some 0 := by
        simp [delete_worker_run, he]
      refine ⟨fun i => ?_, ?_⟩
      · rw [hrun]
        cases i with
        | zero =>
          constructor
          · intro _
            exact ⟨Nat.succ_pos _, by simpa using hee,
              fun j hj => absurd hj (Nat.not_lt_zero j)⟩
          · intro _
            rfl
        | succ k =>
          constructor
          · intro h
            exact absurd (Option.some.inj h) (by omega)
          · rintro ⟨-, -, hall⟩
            exact absurd hee (by simpa using hall 0 (Nat.succ_pos k))
      · rw [hrun]
        constructor
        · intro h
          cases h
        · intro hall
          exact absurd hee (hall e (List.mem_cons_self _ _))
    | false =>
      have hne : ¬ exitEvent e := by
        rw [exitEvent_iff_exitStep, he]
        simp
      have hrun : delete_worker_run (e :: es) =
          (delete_worker_run es).map (· + 1) := by
        simp [delete_worker_run, he]
      refine ⟨fun i => ?_, ?_⟩
      · rw [hrun]
        cases hres : delete_worker_run es with
        | none =>
          simp only [Option.map_none']
          constructor
          · intro h
            cases h
          · rintro ⟨hlen, hexit, hall⟩
            cases i with
            | zero => exact absurd (by simpa using hexit) hne
            | succ k =>
              have hk : delete_worker_run es = some k :=
                (ih.1 k).mpr ⟨by simpa using Nat.lt_of_succ_lt_succ hlen,
                  by simpa using hexit,
                  fun n hn => by simpa using hall (n + 1) (by omega)⟩
              rw [hres] at hk
              cases hk
        | some m =>
          simp only [Option.map_some']
          obtain ⟨hmlen, hmexit, hmall⟩ := (ih.1 m).mp hres
          constructor
          · intro h
            have him : i = m + 1 := (Option.some.inj h).symm
            subst him
            refine ⟨by simpa using Nat.succ_lt_succ hmlen,
              by simpa using hmexit, ?_⟩
            intro j hj
            cases j with
            | zero => simpa using hne
            | succ n =>
              have hn : n < m := by omega
              simpa using hmall n hn
          · rintro ⟨hlen, hexit, hall⟩
            cases i with
            | zero => exact absurd (by simpa using hexit) hne
            | succ k =>
              have hk : delete_worker_run es = some k :=
                (ih.1 k).mpr ⟨by simpa using Nat.lt_of_succ_lt_succ hlen,
                  by simpa using hexit,
                  fun n hn => by simpa using hall (n + 1) (by omega)⟩
              rw [hres] at hk
              rw [Option.some.inj hk]
      · rw [hrun]
        cases hres : delete_worker_run es with
        | none =>
          simp only [Option.map_none']
          constructor
          · intro _ x hx
            rcases List.mem_cons.mp hx with rfl | hx2
            · exact hne
            · exact (ih.2.mp hres) x hx2
          · intro _
            trivial
        | some m =>
          simp only [Option.map_some']
          constructor
          · intro h
            cases h
          · intro hall
            have : delete_worker_run es = none :=
              ih.2.mpr (fun x hx => hall x (List.mem_cons_of_mem _ hx))
            rw [hres] at this
            cases this

/-- Witness for C5: on a trace where the worker first receives a job, then a
timeout with only `ScannersDone` set, then a timeout with only the queue
empty, it keeps looping, and exits at the timeout where both hold. -/
theorem delete_worker_exit_characterization_witness :
    delete_worker_run
      [.ok (.File ["a"]), .timeout true false, .timeout false true,
        .timeout true true] = some 3 :=
  ((delete_worker_exit_characterization
      [.ok (.File ["a"]), .timeout true false, .timeout false true,
        .timeout true true]).1 3).mpr (by decide)

/-! ## Filesystem trees (`src/scanner.rs`, `src/removal.rs`)

A snapshot of the tree being scanned.  Besides regular files, symlinks and
directories, the model carries the failure modes the source distinguishes:
`other` is an entry of unsupported type (device, socket, fifo),
`badMeta` an entry whose `symlink_metadata` call fails, `badDir` a directory
whose `read_dir` call fails, and `entryErr` a `read_dir` iterator slot that
yields `Err` (so it has no name and is never recursed into). -/

mutual
inductive FsNode where
  | file (name : String)
  | symlink (name : String)
  | other (name : String)
  | badMeta (name : String)
  | badDir (name : String)
  | entryErr
  | dir (name : String) (entries : FsList)
inductive FsList where
  | nil
  | cons (head : FsNode) (tail : FsList)
end

/-- The file name of an entry (`entryErr` yields no `DirEntry`, hence no
name; it also never contributes a path). -/
def FsNode.nameOf : FsNode → String
  | .file n => n
  | .symlink n => n
  | .other n => n
  | .badMeta n => n
  | .badDir n => n
  | .entryErr => ""
  | .dir n _ => n

/-- Whether an entry is a `read_dir` iterator error slot. -/
def FsNode.isEntryErr : FsNode → Bool
  | .entryErr => true
  | _ => false

/-- Names of the entries that actually exist as directory children. -/
def FsList.realNames : FsList → List String
  | .nil => []
  | .cons e es => if e.isEntryErr then es.realNames else e.nameOf :: es.realNames

/-- Boolean no-duplicate test used for well-formedness of sibling names. -/
def namesNodup : List String → Bool
  | [] => true
  | x :: xs => !xs.contains x && namesNodup xs

mutual
/-- Filesystem well-formedness: in every directory, the names of the
children that exist are pairwise distinct (as every real filesystem
guarantees). -/
def FsNode.wfB : FsNode → Bool
  | .dir _ es => namesNodup es.realNames && es.wfB
  | _ => true
def FsList.wfB : FsList → Bool
  | .nil => true
  | .cons e es => e.wfB && es.wfB
end

mutual
/-- A tree free of every failure mode (only files, symlinks, directories). -/
def FsNode.cleanB : FsNode → Bool
  | .file _ => true
  | .symlink _ => true
  | .dir _ es => es.cleanB
  | _ => false
def FsList.cleanB : FsList → Bool
  | .nil => true
  | .cons e es => e.cleanB && es.cleanB
end

/-! ## Scanner (`src/scanner.rs`, `scan_path` / `scan_directory`)

The sequential embedding fixes one schedule of the rayon `par_bridge` fan
out (children in order); the interleaving relation `ScanEmits` below covers
every schedule.  `ScanOut` collects the jobs enqueued, the number of
`inc_scanned` calls, the number of `inc_error` calls (the scanner records an
error only for `read_dir` iterator failures, `DirEntryFailed`), and whether
the call returned `Ok`. -/

structure ScanOut where
  jobs : List FileJob
  scanned : Nat
  errors : Nat
  ok : Bool
deriving DecidableEq, Repr

mutual
/-- Embedding of `scan_path`: bump `scanned`, classify via
`symlink_metadata`, enqueue the matching job, and for a directory enqueue
`EmptyDir` after the whole child scan — unless a child error propagates
because `continue_on_error` is unset.  The `entryErr` case stands for the
`Err` arm of the `read_dir` iterator inside `scan_directory`: no `scanned`
increment, one recorded `DirEntryFailed`, an `Err` result. -/
def scan_path (coe : Bool) (t : FsNode) (p : Path) : ScanOut :=
  match t with
  | .file _ => ⟨[.File p], 1, 0, true⟩
  | .symlink _ => ⟨[.Symlink p], 1, 0, true⟩
  | .other _ => ⟨[], 1, 0, false⟩
  | .badMeta _ => ⟨[], 1, 0, false⟩
  | .badDir _ => ⟨[], 1, 0, false⟩
  | .entryErr => ⟨[], 0, 1, false⟩
  | .dir _ es =>
    let r := scan_directory coe es p
    if !r.ok && !coe then ⟨r.jobs, 1 + r.scanned, r.errors, false⟩
    else ⟨r.jobs ++ [.EmptyDir p], 1 + r.scanned, r.errors, true⟩
/-- Embedding of `scan_directory`: scan every child (child paths extend the
parent path by the entry name), collecting jobs, counters, and whether all
children succeeded. -/
def scan_directory (coe : Bool) (es : FsList) (p : Path) : ScanOut :=
  match es with
  | .nil => ⟨[], 0, 0, true⟩
  | .cons e rest =>
    let c := scan_path coe e (p ++ [e.nameOf])
    let r := scan_directory coe rest p
    ⟨c.jobs ++ r.jobs, c.scanned + r.scanned, c.errors + r.errors,
      c.ok && r.ok⟩
end

/-- Number of successful outcomes in a deleter outcome assignment. -/
def countTrue : List Bool → Nat
  | [] => 0
  | b :: bs => (if b then 1 else 0) + countTrue bs

theorem countTrue_le (l : List Bool) : countTrue l ≤ l.length := by
  induction l with
  | nil => simp [countTrue]
  | cons b bs ih =>
    cases b <;> simp [countTrue] <;> omega

/-! ## Concurrent scanner emission (`src/scanner.rs` under rayon)

`scan_directory` scans the children of one directory in parallel
(`par_bridge`), so the jobs of sibling subtrees reach the queue in an
arbitrary interleaving; within one subtree the program order of the sends is
preserved, and `EmptyDir(p)` is sent only after every child scan returned.
`ScanEmits` captures every such schedule: the emitted list is any
interleaving of the children emissions, followed by the parent `EmptyDir`
when the directory scan succeeds. -/

/-- `Shuffle a b c`: `c` is an order-preserving interleaving of `a` and
`b`. -/
inductive Shuffle : List FileJob → List FileJob → List FileJob → Prop where
  | nil : Shuffle [] [] []
  | left (x : FileJob) {a b c : List FileJob} :
      Shuffle a b c → Shuffle (x :: a) b (x :: c)
  | right (x : FileJob) {a b c : List FileJob} :
      Shuffle a b c → Shuffle a (x :: b) (x :: c)

theorem Shuffle.mem {a b c : List FileJob} (h : Shuffle a b c) :
    ∀ x ∈ c, x ∈ a ∨ x ∈ b := by
  induction h with
  | nil => intro x hx; cases hx
  | left y hs ih =>
    intro x hx
    rcases List.mem_cons.mp hx with rfl | hx2
    · exact Or.inl (List.mem_cons_self _ _)
    · rcases ih x hx2 with h1 | h2
      · exact Or.inl (List.mem_cons_of_mem _ h1)
      · exact Or.inr h2
  | right y hs ih =>
    intro x hx
    rcases List.mem_cons.mp hx with rfl | hx2
    · exact Or.inr (List.mem_cons_self _ _)
    · rcases ih x hx2 with h1 | h2
      · exact Or.inl h1
      · exact Or.inr (List.mem_cons_of_mem _ h2)

theorem Shuffle.symm {a b c : List FileJob} (h : Shuffle a b c) :
    Shuffle b a c := by
  induction h with
  | nil => exact .nil
  | left y hs ih => exact .right y ih
  | right y hs ih => exact .left y ih

theorem Shuffle.nil_left {b c : List FileJob} (h : Shuffle [] b c) : c = b := by
  generalize ha : ([] : List FileJob) = a at h
  induction h with
  | nil => rfl
  | left y hs ih => cases ha
  | right y hs ih => rw [ih ha]

theorem Shuffle.of_append (a b : List FileJob) : Shuffle a b (a ++ b) := by
  induction a with
  | nil =>
    simp only [List.nil_append]
    induction b with
    | nil => exact .nil
    | cons y ys ih => exact .right y ih
  | cons x xs ih => exact .left x ih

mutual
/-- All emissions of `scan_path` on node `t` at path `p` under any schedule:
the emitted job list together with the call result. -/
def ScanEmits (coe : Bool) : FsNode → Path → List FileJob → Bool → Prop
  | .file _, p, L, ok => L = [.File p] ∧ ok = true
  | .symlink _, p, L, ok => L = [.Symlink p] ∧ ok = true
  | .other _, _, L, ok => L = [] ∧ ok = false
  | .badMeta _, _, L, ok => L = [] ∧ ok = false
  | .badDir _, _, L, ok => L = [] ∧ ok = false
  | .entryErr, _, L, ok => L = [] ∧ ok = false
  | .dir _ es, p, L, ok => ∃ M cok, DirEmits coe es p M cok ∧
      ((cok = false ∧ coe = false ∧ L = M ∧ ok = false) ∨
        ((cok = true ∨ coe = true) ∧ L = M ++ [.EmptyDir p] ∧ ok = true))
/-- All emissions of the parallel `scan_directory` loop: any interleaving of
the per-child emissions, `ok` iff every child call succeeded. -/
def DirEmits (coe : Bool) : FsList → Path → List FileJob → Bool → Prop
  | .nil, _, M, ok => M = [] ∧ ok = true
  | .cons e es, p, M, ok => ∃ L1 ok1 M2 ok2,
      ScanEmits coe e (p ++ [e.nameOf]) L1 ok1 ∧
      DirEmits coe es p M2 ok2 ∧ Shuffle L1 M2 M ∧ ok = (ok1 && ok2)
end

mutual
/-- The sequential schedule (children in order) realizes `scan_path`. -/
theorem scan_path_emits : ∀ (coe : Bool) (t : FsNode) (p : Path),
    ScanEmits coe t p (scan_path coe t p).jobs (scan_path coe t p).ok
  | coe, .file _, p => by rw [ScanEmits, scan_path]; exact ⟨rfl, rfl⟩
  | coe, .symlink _, p => by rw [ScanEmits, scan_path]; exact ⟨rfl, rfl⟩
  | coe, .other _, p => by rw [ScanEmits, scan_path]; exact ⟨rfl, rfl⟩
  | coe, .badMeta _, p => by rw [ScanEmits, scan_path]; exact ⟨rfl, rfl⟩
  | coe, .badDir _, p => by rw [ScanEmits, scan_path]; exact ⟨rfl, rfl⟩
  | coe, .entryErr, p => by rw [ScanEmits, scan_path]; exact ⟨rfl, rfl⟩
  | coe, .dir n es, p => by
    have hd := scan_directory_emits coe es p
    rw [ScanEmits, scan_path]
    refine ⟨(scan_directory coe es p).jobs, (scan_directory coe es p).ok,
      hd, ?_⟩
    cases hok : (scan_directory coe es p).ok with
    | false =>
      cases hcoe : coe with
      | false =>
        refine Or.inl ⟨rfl, rfl, ?_, ?_⟩ <;> simp [hok, hcoe]
      | true =>
        refine Or.inr ⟨Or.inr rfl, ?_, ?_⟩ <;> simp [hok, hcoe]
    | true =>
      refine Or.inr ⟨Or.inl rfl, ?_, ?_⟩ <;> simp [hok]
theorem scan_directory_emits : ∀ (coe : Bool) (es : FsList) (p : Path),
    DirEmits coe es p (scan_directory coe es p).jobs
      (scan_directory coe es p).ok
  | coe, .nil, p => by rw [DirEmits, scan_directory]; exact ⟨rfl, rfl⟩
  | coe, .cons e rest, p => by
    have h1 := scan_path_emits coe e (p ++ [e.nameOf])
    have h2 := scan_directory_emits coe rest p
    rw [DirEmits, scan_directory]
    exact ⟨_, _, _, _, h1, h2, Shuffle.of_append _ _, rfl⟩
end

/-- An iterator-error slot yields no `DirEntry`, so it emits no job. -/
theorem scanEmits_entryErr_nil {coe : Bool} {e : FsNode} {p : Path}
    {L : List FileJob} {ok : Bool} (he : e.isEntryErr = true)
    (h : ScanEmits coe e p L ok) : L = [] := by
  cases e <;> simp [FsNode.isEntryErr] at he
  rw [ScanEmits] at h
  exact h.1

/-- The name of an existing child is among the real names of the entry
list. -/
theorem realNames_cons_self {e : FsNode} (rest : FsList)
    (he : e.isEntryErr = false) :
    e.nameOf ∈ (FsList.cons e rest).realNames := by
  rw [FsList.realNames, he]
  simp

/-- Real names of the tail stay real names of the entry list. -/
theorem realNames_cons_tail {e : FsNode} {rest : FsList} {s : String}
    (hs : s ∈ rest.realNames) : s ∈ (FsList.cons e rest).realNames := by
  rw [FsList.realNames]
  cases he : e.isEntryErr with
  | true => simpa using hs
  | false => simpa using Or.inr hs

mutual
/-- Every job emitted by a scan of `t` at `p` has `p` as a component
prefix of its path. -/
theorem scanEmits_under : ∀ (coe : Bool) (t : FsNode) (p : Path)
    (L : List FileJob) (ok : Bool), ScanEmits coe t p L ok →
    ∀ j ∈ L, pathLe p (jobPath j) = true
  | coe, .file _, p, L, ok, h => by
    rw [ScanEmits] at h
    intro j hj
    rw [h.1] at hj
    rcases List.mem_singleton.mp hj with rfl
    exact pathLe_refl p
  | coe, .symlink _, p, L, ok, h => by
    rw [ScanEmits] at h
    intro j hj
    rw [h.1] at hj
    rcases List.mem_singleton.mp hj with rfl
    exact pathLe_refl p
  | coe, .other _, p, L, ok, h => by
    rw [ScanEmits] at h
    intro j hj
    rw [h.1] at hj
    cases hj
  | coe, .badMeta _, p, L, ok, h => by
    rw [ScanEmits] at h
    intro j hj
    rw [h.1] at hj
    cases hj
  | coe, .badDir _, p, L, ok, h => by
    rw [ScanEmits] at h
    intro j hj
    rw [h.1] at hj
    cases hj
  | coe, .entryErr, p, L, ok, h => by
    rw [ScanEmits] at h
    intro j hj
    rw [h.1] at hj
    cases hj
  | coe, .dir n es, p, L, ok, h => by
    rw [ScanEmits] at h
    obtain ⟨M, cok, hM, hcase⟩ := h
    have hMu := dirEmits_under coe es p M cok hM
    intro j hj
    have hjM : j ∈ M ∨ j = .EmptyDir p := by
      rcases hcase with ⟨-, -, rfl, -⟩ | ⟨-, rfl, -⟩
      · exact Or.inl hj
      · rcases List.mem_append.mp hj with h1 | h2
        · exact Or.inl h1
        · exact Or.inr (List.mem_singleton.mp h2)
    rcases hjM with h1 | rfl
    · obtain ⟨s, -, hs⟩ := hMu j h1
      exact pathLe_trans (pathLe_append p [s]) hs
    · exact pathLe_refl p
/-- Every job emitted by the children loop of a directory at `p` lies under
`p` extended by the name of one existing child. -/
theorem dirEmits_under : ∀ (coe : Bool) (es : FsList) (p : Path)
    (M : List FileJob) (ok : Bool), DirEmits coe es p M ok →
    ∀ j ∈ M, ∃ s, s ∈ es.realNames ∧ pathLe (p ++ [s]) (jobPath j) = true
  | coe, .nil, p, M, ok, h => by
    rw [DirEmits] at h
    intro j hj
    rw [h.1] at hj
    cases hj
  | coe, .cons e rest, p, M, ok, h => by
    rw [DirEmits] at h
    obtain ⟨L1, ok1, M2, ok2, h1, h2, hs, -⟩ := h
    intro j hj
    rcases hs.mem j hj with hm | hm
    · cases he : e.isEntryErr with
      | true =>
        rw [scanEmits_entryErr_nil he h1] at hm
        cases hm
      | false =>
        exact ⟨e.nameOf, realNames_cons_self rest he,
          scanEmits_under coe e (p ++ [e.nameOf]) L1 ok1 h1 j hm⟩
    · obtain ⟨s, hsm, hsp⟩ := dirEmits_under coe rest p M2 ok2 h2 j hm
      exact ⟨s, realNames_cons_tail hsm, hsp⟩
end

theorem pathLe_exists_append {a b : Path} (h : pathLe a b = true) :
    ∃ t, b = a ++ t := by
  induction a generalizing b with
  | nil => exact ⟨b, rfl⟩
  | cons x xs ih =>
    cases b with
    | nil => simp [pathLe] at h
    | cons y ys =>
      simp only [pathLe, Bool.and_eq_true, beq_iff_eq] at h
      obtain ⟨t, rfl⟩ := ih h.2
      exact ⟨t, by simp [h.1]⟩

/-- Paths inside the subtrees of two distinct children of the same directory
are unrelated: nothing under `p/nm/...` is an ancestor of anything under
`p/s/...` when `nm ≠ s`. -/
theorem disjoint_subtrees {p : Path} {nm s : String} {d q : Path}
    (hne : nm ≠ s) (hd : pathLe (p ++ [nm]) d = true)
    (hq : pathLe (p ++ [s]) q = true) : pathLe d q = false := by
  cases hdq : pathLe d q with
  | false => rfl
  | true =>
    obtain ⟨t, rfl⟩ := pathLe_exists_append hq
    have htr : pathLe (p ++ [nm]) (p ++ [s] ++ t) = true :=
      pathLe_trans hd hdq
    rw [List.append_assoc, List.singleton_append,
      pathLe_append_cons_ne hne] at htr
    cases htr

/-- A path extending `p` by at least one component is never an ancestor of a
strict ancestor of `p`, and in particular `p` itself does not lie strictly
under it. -/
theorem not_strictUnder_parent {p d : Path} {s : String}
    (hd : pathLe (p ++ [s]) d = true) : ¬ strictUnder p d := by
  rintro ⟨hle, -⟩
  have h1 := pathLe_length hd
  have h2 := pathLe_length hle
  simp [List.length_append] at h1
  omega

/-- After any occurrence of `EmptyDir d` in the job sequence, no later job
lies strictly under `d`.  This is the child-before-parent queue invariant,
stated recursively. -/
def ordOk (d : Path) : List FileJob → Prop
  | [] => True
  | j :: rest =>
    (j = .EmptyDir d → ∀ k ∈ rest, ¬ strictUnder (jobPath k) d) ∧
      ordOk d rest

theorem ordOk_singleton (d : Path) (x : FileJob) : ordOk d [x] := by
  exact ⟨fun _ k hk => absurd hk (List.not_mem_nil k), trivial⟩

theorem ordOk_of_not_mem {d : Path} {L : List FileJob}
    (h : FileJob.EmptyDir d ∉ L) : ordOk d L := by
  induction L with
  | nil => trivial
  | cons j rest ih =>
    refine ⟨fun hj => ?_, ih (fun hm => h (List.mem_cons_of_mem _ hm))⟩
    exact absurd (hj ▸ List.mem_cons_self j rest) h

theorem ordOk_append_singleton {d : Path} {L : List FileJob} {x : FileJob}
    (h : ordOk d L) (hx : ¬ strictUnder (jobPath x) d) :
    ordOk d (L ++ [x]) := by
  induction L with
  | nil => simpa using ordOk_singleton d x
  | cons j rest ih =>
    refine ⟨fun hj k hk => ?_, ih h.2⟩
    rcases List.mem_append.mp hk with h1 | h2
    · exact h.1 hj k h1
    · rcases List.mem_singleton.mp h2 with rfl
      exact hx

/-- An interleaving preserves the invariant when the other strand touches
nothing related to `d`. -/
theorem shuffle_ordOk {d : Path} {a b c : List FileJob} (hs : Shuffle a b c)
    (ha : ordOk d a)
    (hb : ∀ x ∈ b, ¬ strictUnder (jobPath x) d ∧ x ≠ .EmptyDir d) :
    ordOk d c := by
  induction hs with
  | nil => trivial
  | left y hs ih =>
    refine ⟨fun hy k hk => ?_, ih ha.2 hb⟩
    rcases hs.mem k hk with h1 | h2
    · exact ha.1 hy k h1
    · exact (hb k h2).1
  | right y hs ih =>
    refine ⟨fun hy => absurd hy (hb y (List.mem_cons_self _ _)).2,
      ih ha (fun x hx => hb x (List.mem_cons_of_mem _ hx))⟩

/-- Boolean no-duplicate test implies the head name is not among the tail
names. -/
theorem namesNodup_cons {x : String} {xs : List String}
    (h : namesNodup (x :: xs) = true) : x ∉ xs ∧ namesNodup xs = true := by
  rw [namesNodup, Bool.and_eq_true] at h
  refine ⟨fun hm => ?_, h.2⟩
  have h1 := h.1
  simp at h1
  exact h1 hm

mutual
/-- Child-before-parent invariant for any schedule of a well-formed scan:
after an `EmptyDir d` job, no job strictly under `d` is ever emitted. -/
theorem scanEmits_ordOk : ∀ (coe : Bool) (t : FsNode) (p : Path)
    (L : List FileJob) (ok : Bool), ScanEmits coe t p L ok →
    t.wfB = true → ∀ d, ordOk d L
  | coe, .file _, p, L, ok, h, _, d => by
    rw [ScanEmits] at h
    rw [h.1]
    exact ordOk_singleton d _
  | coe, .symlink _, p, L, ok, h, _, d => by
    rw [ScanEmits] at h
    rw [h.1]
    exact ordOk_singleton d _
  | coe, .other _, p, L, ok, h, _, d => by
    rw [ScanEmits] at h
    rw [h.1]
    trivial
  | coe, .badMeta _, p, L, ok, h, _, d => by
    rw [ScanEmits] at h
    rw [h.1]
    trivial
  | coe, .badDir _, p, L, ok, h, _, d => by
    rw [ScanEmits] at h
    rw [h.1]
    trivial
  | coe, .entryErr, p, L, ok, h, _, d => by
    rw [ScanEmits] at h
    rw [h.1]
    trivial
  | coe, .dir n es, p, L, ok, h, hwf, d => by
    rw [ScanEmits] at h
    obtain ⟨M, cok, hM, hcase⟩ := h
    rw [FsNode.wfB, Bool.and_eq_true] at hwf
    have hMo : ordOk d M := dirEmits_ordOk coe es p M cok hM hwf.2 hwf.1 d
    rcases hcase with ⟨-, -, rfl, -⟩ | ⟨-, rfl, -⟩
    · exact hMo
    · by_cases hd : FileJob.EmptyDir d ∈ M
      · obtain ⟨s, -, hs⟩ := dirEmits_under coe es p M cok hM _ hd
        exact ordOk_append_singleton hMo (not_strictUnder_parent hs)
      · by_cases hdp : d = p
        · subst hdp
          exact ordOk_append_singleton (ordOk_of_not_mem hd)
            (fun hc => hc.2 rfl)
        · refine ordOk_of_not_mem (fun hm => ?_)
          rcases List.mem_append.mp hm with h1 | h2
          · exact hd h1
          · rcases List.mem_singleton.mp h2 with he
            exact hdp (FileJob.EmptyDir.inj he)
/-- Child-before-parent invariant for any interleaving of the children
emissions of one well-formed directory. -/
theorem dirEmits_ordOk : ∀ (coe : Bool) (es : FsList) (p : Path)
    (M : List FileJob) (ok : Bool), DirEmits coe es p M ok →
    es.wfB = true → namesNodup es.realNames = true → ∀ d, ordOk d M
  | coe, .nil, p, M, ok, h, _, _, d => by
    rw [DirEmits] at h
    rw [h.1]
    trivial
  | coe, .cons e rest, p, M, ok, h, hwf, hnames, d => by
    rw [DirEmits] at h
    obtain ⟨L1, ok1, M2, ok2, h1, h2, hs, -⟩ := h
    rw [FsList.wfB, Bool.and_eq_true] at hwf
    cases he : e.isEntryErr with
    | true =>
      have hL1 : L1 = [] := scanEmits_entryErr_nil he h1
      subst hL1
      rw [hs.nil_left]
      have hnames2 : namesNodup rest.realNames = true := by
        rw [FsList.realNames, he] at hnames
        exact hnames
      exact dirEmits_ordOk coe rest p M2 ok2 h2 hwf.2 hnames2 d
    | false =>
      have hnames2 : e.nameOf ∉ rest.realNames ∧
          namesNodup rest.realNames = true := by
        rw [FsList.realNames, he] at hnames
        exact namesNodup_cons hnames
      by_cases hd1 : FileJob.EmptyDir d ∈ L1
      · have hdp : pathLe (p ++ [e.nameOf]) d = true :=
          scanEmits_under coe e (p ++ [e.nameOf]) L1 ok1 h1 _ hd1
        refine shuffle_ordOk hs
          (scanEmits_ordOk coe e (p ++ [e.nameOf]) L1 ok1 h1 hwf.1 d) ?_
        intro x hx
        obtain ⟨s, hsm, hsx⟩ := dirEmits_under coe rest p M2 ok2 h2 x hx
        have hne : e.nameOf ≠ s := fun hc => hnames2.1 (hc ▸ hsm)
        have hfalse : pathLe d (jobPath x) = false :=
          disjoint_subtrees hne hdp hsx
        constructor
        · rintro ⟨hc, -⟩
          rw [hfalse] at hc
          cases hc
        · rintro rfl
          rw [jobPath, pathLe_refl] at hfalse
          cases hfalse
      · by_cases hd2 : FileJob.EmptyDir d ∈ M2
        · obtain ⟨s, hsm, hsd⟩ := dirEmits_under coe rest p M2 ok2 h2 _ hd2
          refine shuffle_ordOk hs.symm
            (dirEmits_ordOk coe rest p M2 ok2 h2 hwf.2 hnames2.2 d) ?_
          intro x hx
          have hxp : pathLe (p ++ [e.nameOf]) (jobPath x) = true :=
            scanEmits_under coe e (p ++ [e.nameOf]) L1 ok1 h1 x hx
          have hne : s ≠ e.nameOf := fun hc => hnames2.1 (hc ▸ hsm)
          have hfalse : pathLe d (jobPath x) = false :=
            disjoint_subtrees hne hsd hxp
          constructor
          · rintro ⟨hc, -⟩
            rw [hfalse] at hc
            cases hc
          · rintro rfl
            rw [jobPath, pathLe_refl] at hfalse
            cases hfalse
        · refine ordOk_of_not_mem (fun hm => ?_)
          rcases hs.mem _ hm with h1m | h2m
          · exact hd1 h1m
          · exact hd2 h2m
end

/-- Positional restatement of `ordOk`: an `EmptyDir d` at position `i` is
followed by no job strictly under `d`. -/
theorem ordOk_get {d : Path} {L : List FileJob} (h : ordOk d L) :
    ∀ i j (hi : i < L.length) (hj : j < L.length), i < j →
      L.get ⟨i, hi⟩ = .EmptyDir d →
      ¬ strictUnder (jobPath (L.get ⟨j, hj⟩)) d := by
  induction L with
  | nil => intro i j hi; simp at hi
  | cons x rest ih =>
    intro i j hi hj hij hx
    cases i with
    | zero =>
      cases j with
      | zero => omega
      | succ m =>
        have hxe : x = .EmptyDir d := hx
        have hm : m < rest.length := Nat.lt_of_succ_lt_succ hj
        have hget : (x :: rest).get ⟨m + 1, hj⟩ = rest.get ⟨m, hm⟩ := rfl
        rw [hget]
        exact h.1 hxe _ (List.get_mem rest m hm)
    | succ k =>
      cases j with
      | zero => omega
      | succ m =>
        exact ih h.2 k m (Nat.lt_of_succ_lt_succ hi)
          (Nat.lt_of_succ_lt_succ hj) (by omega) hx

/--
C2: for every schedule of the parallel scanner on a well-formed tree, in the
sequence of jobs `scan_path` puts on the queue, every job whose path lies
strictly under a directory `D` precedes the `EmptyDir(D)` job: no job after
an `EmptyDir(D)` is strictly under `D`.
-/
theorem scan_emptydir_ordering (coe : Bool) (t : FsNode) (p : Path)
    (L : List FileJob) (ok : Bool) (hemit : ScanEmits coe t p L ok)
    (hwf : t.wfB = true) :
    ∀ d i j (hi : i < L.length) (hj : j < L.length), i < j →
      L.get ⟨i, hi⟩ = .EmptyDir d →
      ¬ strictUnder (jobPath (L.get ⟨j, hj⟩)) d := by
  intro d
  exact ordOk_get (scanEmits_ordOk coe t p L ok hemit hwf d)

/-- Witness for C2 on the concrete tree `d1/d2/f`, scheduled sequentially:
the job after `EmptyDir(d1/d2)` (namely `EmptyDir(d1)`) is not under
`d1/d2`. -/
theorem scan_emptydir_ordering_witness :
    ¬ strictUnder
      (jobPath ((scan_path false
          (.dir "d1" (.cons (.dir "d2" (.cons (.file "f") .nil)) .nil))
          ["d1"]).jobs.get ⟨2, by decide⟩))
      ["d1", "d2"] :=
  scan_emptydir_ordering false
    (.dir "d1" (.cons (.dir "d2" (.cons (.file "f") .nil)) .nil)) ["d1"]
    _ _
    (scan_path_emits false
      (.dir "d1" (.cons (.dir "d2" (.cons (.file "f") .nil)) .nil)) ["d1"])
    (by decide) ["d1", "d2"] 1 2 (by decide) (by decide) (by decide)
    (by decide)

/--
C4 counterexample: scanning a directory containing a single unsupported
entry under `continue_on_error` increments `scanned` twice but records no
error and enqueues only the `EmptyDir` job, so even when every enqueued job
is deleted successfully the run ends with `deleted + errors = 1 ≠ 2 =
scanned` — the `UnsupportedType` failure is silently dropped.
-/
theorem completeness_counterexample :
    (scan_path true (.dir "d" (.cons (.other "x") .nil)) ["d"]).scanned = 2 ∧
    (scan_path true (.dir "d" (.cons (.other "x") .nil)) ["d"]).errors = 0 ∧
    (scan_path true (.dir "d" (.cons (.other "x") .nil)) ["d"]).jobs =
      [.EmptyDir ["d"]] ∧
    (scan_path true (.dir "d" (.cons (.other "x") .nil)) ["d"]).ok = true ∧
    countTrue [true] +
      ((scan_path true (.dir "d" (.cons (.other "x") .nil)) ["d"]).errors +
        (1 - countTrue [true])) ≠
      (scan_path true (.dir "d" (.cons (.other "x") .nil)) ["d"]).scanned := by
  decide

mutual
theorem scan_path_clean : ∀ (coe : Bool) (t : FsNode) (p : Path),
    t.cleanB = true →
    (scan_path coe t p).ok = true ∧
    (scan_path coe t p).jobs.length = (scan_path coe t p).scanned ∧
    (scan_path coe t p).errors = 0
  | coe, .file _, p, _ => by simp [scan_path]
  | coe, .symlink _, p, _ => by simp [scan_path]
  | coe, .other _, p, h => by simp [FsNode.cleanB] at h
  | coe, .badMeta _, p, h => by simp [FsNode.cleanB] at h
  | coe, .badDir _, p, h => by simp [FsNode.cleanB] at h
  | coe, .entryErr, p, h => by simp [FsNode.cleanB] at h
  | coe, .dir n es, p, h => by
    have hes : es.cleanB = true := by simpa [FsNode.cleanB] using h
    obtain ⟨hok, hlen, herr⟩ := scan_directory_clean coe es p hes
    rw [scan_path]
    simp only [hok]
    simp [hlen, herr, Nat.add_comm]
theorem scan_directory_clean : ∀ (coe : Bool) (es : FsList) (p : Path),
    es.cleanB = true →
    (scan_directory coe es p).ok = true ∧
    (scan_directory coe es p).jobs.length =
      (scan_directory coe es p).scanned ∧
    (scan_directory coe es p).errors = 0
  | coe, .nil, p, _ => by simp [scan_directory]
  | coe, .cons e rest, p, h => by
    have he : e.cleanB = true ∧ rest.cleanB = true := by
      simpa [FsList.cleanB, Bool.and_eq_true] using h
    obtain ⟨h1ok, h1len, h1err⟩ := scan_path_clean coe e (p ++ [e.nameOf]) he.1
    obtain ⟨h2ok, h2len, h2err⟩ := scan_directory_clean coe rest p he.2
    rw [scan_directory]
    simp [h1ok, h2ok, h1len, h2len, h1err, h2err]
end

/--
C4 amended: the completeness identity `deleted + errors == scanned` holds at
the end of every run over a tree with no scanner-side failures (no
unsupported types, no metadata or read_dir failures, no directory-entry
errors), for any `continue_on_error` setting and any per-job deleter
outcome — each enqueued job contributes exactly one `deleted` or one
`errors` increment.  On scanner-side failures the identity breaks (see the
counterexample): unsupported-type and metadata failures increment `scanned`
without ever recording an error, and a directory-entry failure records an
error without incrementing `scanned`.
-/
theorem completeness_clean_tree (coe : Bool) (t : FsNode) (p : Path)
    (outcomes : List Bool) (hclean : t.cleanB = true)
    (hlen : outcomes.length = (scan_path coe t p).jobs.length) :
    countTrue outcomes +
      ((scan_path coe t p).errors +
        (outcomes.length - countTrue outcomes)) =
      (scan_path coe t p).scanned := by
  obtain ⟨-, hjobs, herr⟩ := scan_path_clean coe t p hclean
  have hct := countTrue_le outcomes
  rw [herr, hlen] at *
  omega

/-- Witness for the amended C4 theorem: a clean two-file directory with one
deleter failure still balances `deleted + errors = scanned = 3`. -/
theorem completeness_clean_tree_witness :
    countTrue [true, false, true] +
      ((scan_path false
          (.dir "d" (.cons (.file "a") (.cons (.file "b") .nil)))
          ["d"]).errors +
        (3 - countTrue [true, false, true])) =
      (scan_path false
          (.dir "d" (.cons (.file "a") (.cons (.file "b") .nil)))
          ["d"]).scanned :=
  completeness_clean_tree false
    (.dir "d" (.cons (.file "a") (.cons (.file "b") .nil))) ["d"]
    [true, false, true] (by decide) (by decide)

/-! ## Deletion primitives (`src/deleter.rs`, `src/removal.rs`)

Destructive syscall outcomes are supplied by an oracle; the trace of
attempted destructive syscalls (`unlink`/`rmdir`) is returned explicitly, so
frame properties are statements about that trace. -/

/-- Outcomes of the destructive syscalls on each path. -/
structure FsOracle where
  unlinkOk : Path → Bool
  rmdirOk : Path → Bool

/-- One attempted destructive syscall. -/
inductive Effect where
  | unlink (p : Path)
  | rmdir (p : Path)
deriving DecidableEq, Repr

/-- Outcome of one deleter action (`src/deleter.rs`): syscalls attempted,
`inc_deleted` calls, `inc_error` calls, and whether it returned `Ok`. -/
structure DelOut where
  effects : List Effect
  deleted : Nat
  errors : Nat
  ok : Bool
deriving DecidableEq, Repr

/-- Embedding of `delete_file` (`src/deleter.rs`): skip the unlink under
dry-run but still count the job as deleted; otherwise unlink, counting a
success or recording an error. -/
def delete_file (dryRun : Bool) (o : FsOracle) (p : Path) : DelOut :=
  if dryRun then ⟨[], 1, 0, true⟩
  else if o.unlinkOk p then ⟨[.unlink p], 1, 0, true⟩
  else ⟨[.unlink p], 0, 1, false⟩

/-- Embedding of `delete_symlink` (`src/deleter.rs`), identical to
`delete_file` up to the message text. -/
def delete_symlink (dryRun : Bool) (o : FsOracle) (p : Path) : DelOut :=
  if dryRun then ⟨[], 1, 0, true⟩
  else if o.unlinkOk p then ⟨[.unlink p], 1, 0, true⟩
  else ⟨[.unlink p], 0, 1, false⟩

/-- Result of one rmdir attempt, as the deleter distinguishes them: success,
failure with "directory not empty" (a sibling deleter has not yet finished
unlinking descendants), or any other failure. -/
inductive RmdirResult where
  | ok
  | notEmpty
  | otherErr
deriving DecidableEq, Repr

/-- Outcome of `delete_empty_dir`: number of rmdir syscalls issued, counter
increments, and whether it returned `Ok`. -/
structure RmdirOut where
  attempts : Nat
  deleted : Nat
  errors : Nat
  ok : Bool
deriving DecidableEq, Repr

/-- Embedding of `delete_empty_dir` (`src/deleter.rs`): the environment is
the outcome each successive rmdir attempt would observe (attempt `k`
succeeds once the siblings holding the last descendants have finished).  The
source issues exactly one `fs::remove_dir` call and records an error on any
failure — it never consults attempt 1 and beyond. -/
def delete_empty_dir (dryRun : Bool) (attempt : Nat → RmdirResult) :
    RmdirOut :=
  if dryRun then ⟨0, 1, 0, true⟩
  else
    match attempt 0 with
    | .ok => ⟨1, 1, 0, true⟩
    | .notEmpty => ⟨1, 0, 1, false⟩
    | .otherErr => ⟨1, 0, 1, false⟩

/-- Reference definition following the specification text (§4.4 retry
policy): keep retrying an rmdir that fails with "directory not empty", up to
`fuel` retries (the escalating sleeps are timing and not modelled), starting
at attempt `k`; return the number of attempts issued and whether the rmdir
eventually succeeded. -/
def spec_rmdir_with_retry (fuel k : Nat) (attempt : Nat → RmdirResult) :
    Nat × Bool :=
  match attempt k, fuel with
  | .ok, _ => (k + 1, true)
  | .otherErr, _ => (k + 1, false)
  | .notEmpty, 0 => (k + 1, false)
  | .notEmpty, f + 1 => spec_rmdir_with_retry f (k + 1) attempt

/--
C1: the code issues exactly one rmdir and records an error on the first
"directory not empty" failure, with no retry and no backoff.  At the
concrete racy input — attempt 0 observes a still-draining directory, every
later attempt would succeed — `delete_empty_dir` makes one attempt, records
one error and returns `Err`, while the specified retry policy (16 retries)
would have succeeded on its second attempt.
-/
theorem delete_empty_dir_no_retry :
    (delete_empty_dir false
      (fun k => if k = 0 then .notEmpty else .ok)).attempts = 1 ∧
    (delete_empty_dir false
      (fun k => if k = 0 then .notEmpty else .ok)).errors = 1 ∧
    (delete_empty_dir false
      (fun k => if k = 0 then .notEmpty else .ok)).ok = false ∧
    spec_rmdir_with_retry 16 0
      (fun k => if k = 0 then .notEmpty else .ok) = (2, true) := by
  decide

/-! ## Single-pool recursive removal (`src/removal.rs`) -/

/-- Outcome of a `fast_remove` subtree call: attempted destructive syscalls,
ProgressCore increments, and `Ok(count)` or `Err`. -/
structure RemOut where
  effects : List Effect
  deleted : Nat
  errors : Nat
  scanned : Nat
  result : Option Nat
deriving DecidableEq, Repr

/-- Aggregate over the `par_bridge` children loop of `remove_directory`:
`okSum` is the sum of the counts of the successful children, `anyErr`
whether any child (or iterator slot) failed. -/
structure ChildrenOut where
  effects : List Effect
  deleted : Nat
  errors : Nat
  scanned : Nat
  okSum : Nat
  anyErr : Bool
deriving DecidableEq, Repr

/-- Embedding of `remove_file` (`src/removal.rs`): under dry-run skip the
unlink and count the item as deleted; otherwise unlink, recording the error
on failure.  Returns `Ok(1)` on success. -/
def remove_file (dryRun : Bool) (o : FsOracle) (p : Path) : RemOut :=
  if dryRun then ⟨[], 1, 0, 0, some 1⟩
  else if o.unlinkOk p then ⟨[.unlink p], 1, 0, 0, some 1⟩
  else ⟨[.unlink p], 0, 1, 0, none⟩

/-- Embedding of `remove_symlink` (`src/removal.rs`), identical counter and
effect behaviour. -/
def remove_symlink (dryRun : Bool) (o : FsOracle) (p : Path) : RemOut :=
  if dryRun then ⟨[], 1, 0, 0, some 1⟩
  else if o.unlinkOk p then ⟨[.unlink p], 1, 0, 0, some 1⟩
  else ⟨[.unlink p], 0, 1, 0, none⟩

mutual
/-- Embedding of `fast_remove` (`src/removal.rs`): `inc_scanned`, classify
by `symlink_metadata`, dispatch.  `badMeta`/`other`/`badDir` return `Err`
without recording a ProgressCore error; `entryErr` models the `Err` arm of
the `read_dir` iterator inside `remove_directory` (one `inc_error`, an `Err`
contribution, no `inc_scanned`). -/
def fast_remove (dryRun coe : Bool) (o : FsOracle) (t : FsNode) (p : Path) :
    RemOut :=
  match t with
  | .file _ =>
    let r := remove_file dryRun o p
    ⟨r.effects, r.deleted, r.errors, r.scanned + 1, r.result⟩
  | .symlink _ =>
    let r := remove_symlink dryRun o p
    ⟨r.effects, r.deleted, r.errors, r.scanned + 1, r.result⟩
  | .other _ => ⟨[], 0, 0, 1, none⟩
  | .badMeta _ => ⟨[], 0, 0, 1, none⟩
  | .badDir _ => ⟨[], 0, 0, 1, none⟩
  | .entryErr => ⟨[], 0, 1, 0, none⟩
  | .dir _ es =>
    let c := remove_children dryRun coe o es p
    if c.anyErr && !coe then
      ⟨c.effects, c.deleted, c.errors, c.scanned + 1, none⟩
    else if dryRun then
      ⟨c.effects, c.deleted + 1, c.errors, c.scanned + 1,
        some (c.okSum + 1)⟩
    else if o.rmdirOk p then
      ⟨c.effects ++ [.rmdir p], c.deleted + 1, c.errors, c.scanned + 1,
        some (c.okSum + 1)⟩
    else
      ⟨c.effects ++ [.rmdir p], c.deleted, c.errors + 1, c.scanned + 1,
        none⟩
/-- The children loop of `remove_directory`: recurse into every entry,
partition successes from failures, sum the successful counts. -/
def remove_children (dryRun coe : Bool) (o : FsOracle) (es : FsList)
    (p : Path) : ChildrenOut :=
  match es with
  | .nil => ⟨[], 0, 0, 0, 0, false⟩
  | .cons e rest =>
    let c := fast_remove dryRun coe o e (p ++ [e.nameOf])
    let r := remove_children dryRun coe o rest p
    ⟨c.effects ++ r.effects, c.deleted + r.deleted, c.errors + r.errors,
      c.scanned + r.scanned, c.result.getD 0 + r.okSum,
      c.result.isNone || r.anyErr⟩
end

/-- Reference definition following the claim text: the sum, over the
children of a directory, of the counts returned by the successful child
removals (failed children contribute nothing). -/
def succChildrenSum (dryRun coe : Bool) (o : FsOracle) (es : FsList)
    (p : Path) : Nat :=
  match es with
  | .nil => 0
  | .cons e rest =>
    (fast_remove dryRun coe o e (p ++ [e.nameOf])).result.getD 0 +
      succChildrenSum dryRun coe o rest p

theorem remove_children_okSum : ∀ (dryRun coe : Bool) (o : FsOracle)
    (es : FsList) (p : Path),
    (remove_children dryRun coe o es p).okSum =
      succChildrenSum dryRun coe o es p
  | dryRun, coe, o, .nil, p => rfl
  | dryRun, coe, o, .cons e rest, p => by
    rw [remove_children, succChildrenSum]
    simp [remove_children_okSum dryRun coe o rest p]

mutual
/-- Number of filesystem objects in a tree. -/
def FsNode.size : FsNode → Nat
  | .file _ => 1
  | .symlink _ => 1
  | .other _ => 1
  | .badMeta _ => 1
  | .badDir _ => 1
  | .entryErr => 1
  | .dir _ es => 1 + es.size
def FsList.size : FsList → Nat
  | .nil => 0
  | .cons e es => e.size + es.size
end

mutual
/-- On a clean tree with an all-success oracle, `fast_remove` succeeds and
returns exactly the number of objects in the subtree. -/
theorem fast_remove_clean_size : ∀ (dryRun coe : Bool) (o : FsOracle)
    (t : FsNode) (p : Path), t.cleanB = true →
    (∀ q, o.unlinkOk q = true) → (∀ q, o.rmdirOk q = true) →
    (fast_remove dryRun coe o t p).result = some t.size
  | dryRun, coe, o, .file _, p, h, hu, hr => by
    rw [fast_remove, FsNode.size]
    cases dryRun <;> simp [remove_file, hu p]
  | dryRun, coe, o, .symlink _, p, h, hu, hr => by
    rw [fast_remove, FsNode.size]
    cases dryRun <;> simp [remove_symlink, hu p]
  | dryRun, coe, o, .other _, p, h, hu, hr => by simp [FsNode.cleanB] at h
  | dryRun, coe, o, .badMeta _, p, h, hu, hr => by simp [FsNode.cleanB] at h
  | dryRun, coe, o, .badDir _, p, h, hu, hr => by simp [FsNode.cleanB] at h
  | dryRun, coe, o, .entryErr, p, h, hu, hr => by simp [FsNode.cleanB] at h
  | dryRun, coe, o, .dir n es, p, h, hu, hr => by
    have hes : es.cleanB = true := by simpa [FsNode.cleanB] using h
    obtain ⟨hsum, herr⟩ :=
      remove_children_clean_size dryRun coe o es p hes hu hr
    rw [fast_remove, FsNode.size]
    simp only [herr]
    cases dryRun with
    | true => simp [hsum, Nat.add_comm]
    | false => simp [hr p, hsum, Nat.add_comm]
/-- On clean entries with an all-success oracle, the children loop succeeds
entirely and its successful-count sum is the total size. -/
theorem remove_children_clean_size : ∀ (dryRun coe : Bool) (o : FsOracle)
    (es : FsList) (p : Path), es.cleanB = true →
    (∀ q, o.unlinkOk q = true) → (∀ q, o.rmdirOk q = true) →
    (remove_children dryRun coe o es p).okSum = es.size ∧
    (remove_children dryRun coe o es p).anyErr = false
  | dryRun, coe, o, .nil, p, h, hu, hr => by
    rw [remove_children, FsList.size]
    exact ⟨rfl, rfl⟩
  | dryRun, coe, o, .cons e rest, p, h, hu, hr => by
    have hc : e.cleanB = true ∧ rest.cleanB = true := by
      simpa [FsList.cleanB, Bool.and_eq_true] using h
    have h1 := fast_remove_clean_size dryRun coe o e (p ++ [e.nameOf])
      hc.1 hu hr
    obtain ⟨h2s, h2e⟩ :=
      remove_children_clean_size dryRun coe o rest p hc.2 hu hr
    rw [remove_children, FsList.size]
    simp [h1, h2s, h2e]
end

/--
C10: whenever the single-pool recursive `fast_remove` returns `Ok(n)`, `n`
counts exactly the objects it processed under `p`: `1` for a regular file or
symlink, and for a directory the sum of the successful children's counts
plus one for the directory itself; in particular on a clean tree where every
syscall succeeds it returns the exact number of objects in the subtree.
-/
theorem fast_remove_count (dryRun coe : Bool) (o : FsOracle) (p : Path) :
    (∀ nm n, (fast_remove dryRun coe o (.file nm) p).result = some n →
      n = 1) ∧
    (∀ nm n, (fast_remove dryRun coe o (.symlink nm) p).result = some n →
      n = 1) ∧
    (∀ nm es n, (fast_remove dryRun coe o (.dir nm es) p).result = some n →
      n = succChildrenSum dryRun coe o es p + 1) ∧
    (∀ t : FsNode, t.cleanB = true → (∀ q, o.unlinkOk q = true) →
      (∀ q, o.rmdirOk q = true) →
      (fast_remove dryRun coe o t p).result = some t.size) := by
  refine ⟨?_, ?_, ?_, ?_⟩
  · intro nm n h
    rw [fast_remove] at h
    cases dryRun with
    | true => simpa [remove_file] using h.symm
    | false =>
      by_cases hu : o.unlinkOk p = true
      · simp [remove_file, hu] at h
        omega
      · simp [remove_file, hu] at h
  · intro nm n h
    rw [fast_remove] at h
    cases dryRun with
    | true => simpa [remove_symlink] using h.symm
    | false =>
      by_cases hu : o.unlinkOk p = true
      · simp [remove_symlink, hu] at h
        omega
      · simp [remove_symlink, hu] at h
  · intro nm es n h
    rw [fast_remove] at h
    rw [← remove_children_okSum dryRun coe o es p]
    by_cases he : ((remove_children dryRun coe o es p).anyErr && !coe) = true
    · simp [he] at h
    · cases dryRun with
      | true =>
        simp [he] at h
        omega
      | false =>
        by_cases hr : o.rmdirOk p = true
        · simp [he, hr] at h
          omega
        · simp [he, hr] at h
  · intro t hc hu hr
    exact fast_remove_clean_size dryRun coe o t p hc hu hr

/-- Witness for C10 at a concrete directory of two files with an all-success
oracle: the returned count is the successful-children sum plus one, and
equals the subtree size. -/
theorem fast_remove_count_witness :
    (3 = succChildrenSum false false
      (FsOracle.mk (fun _ => true) (fun _ => true))
      (.cons (.file "a") (.cons (.file "b") .nil)) ["d"] + 1) ∧
    (fast_remove false false
      (FsOracle.mk (fun _ => true) (fun _ => true))
      (.dir "d" (.cons (.file "a") (.cons (.file "b") .nil)))
      ["d"]).result =
      some (FsNode.size (.dir "d" (.cons (.file "a") (.cons (.file "b")
        .nil)))) :=
  ⟨(fast_remove_count false false
      (FsOracle.mk (fun _ => true) (fun _ => true)) ["d"]).2.2.1 "d"
      (.cons (.file "a") (.cons (.file "b") .nil)) 3 (by decide),
    (fast_remove_count false false
      (FsOracle.mk (fun _ => true) (fun _ => true)) ["d"]).2.2.2
      (.dir "d" (.cons (.file "a") (.cons (.file "b") .nil))) (by decide)
      (fun _ => rfl) (fun _ => rfl)⟩

mutual
/-- Under dry-run, the recursive removal attempts no destructive syscall
anywhere in the subtree. -/
theorem fast_remove_dry_effects : ∀ (coe : Bool) (o : FsOracle)
    (t : FsNode) (p : Path), (fast_remove true coe o t p).effects = []
  | coe, o, .file _, p => by rw [fast_remove]; simp [remove_file]
  | coe, o, .symlink _, p => by rw [fast_remove]; simp [remove_symlink]
  | coe, o, .other _, p => by rw [fast_remove]
  | coe, o, .badMeta _, p => by rw [fast_remove]
  | coe, o, .badDir _, p => by rw [fast_remove]
  | coe, o, .entryErr, p => by rw [fast_remove]
  | coe, o, .dir n es, p => by
    have h := remove_children_dry_effects coe o es p
    rw [fast_remove]
    by_cases he : ((remove_children true coe o es p).anyErr && !coe) = true
    · simp [he, h]
    · simp [he, h]
theorem remove_children_dry_effects : ∀ (coe : Bool) (o : FsOracle)
    (es : FsList) (p : Path), (remove_children true coe o es p).effects = []
  | coe, o, .nil, p => rfl
  | coe, o, .cons e rest, p => by
    rw [remove_children]
    simp [fast_remove_dry_effects coe o e (p ++ [e.nameOf]),
      remove_children_dry_effects coe o rest p]
end

/--
C9: under dry-run, every deletion operation — on regular files, symlinks and
directories, in both the deleter pool and the single-pool recursive remover
— issues no unlink or rmdir syscall (empty effect trace, zero rmdir
attempts), still returns success, and still counts each acknowledged job as
deleted.
-/
theorem dry_run_purity (o : FsOracle) (p : Path) :
    ((delete_file true o p).effects = [] ∧
      (delete_file true o p).ok = true ∧
      (delete_file true o p).deleted = 1) ∧
    ((delete_symlink true o p).effects = [] ∧
      (delete_symlink true o p).ok = true ∧
      (delete_symlink true o p).deleted = 1) ∧
    (∀ attempt : Nat → RmdirResult,
      (delete_empty_dir true attempt).attempts = 0 ∧
      (delete_empty_dir true attempt).ok = true ∧
      (delete_empty_dir true attempt).deleted = 1) ∧
    ((remove_file true o p).effects = [] ∧
      (remove_file true o p).result = some 1 ∧
      (remove_file true o p).deleted = 1) ∧
    ((remove_symlink true o p).effects = [] ∧
      (remove_symlink true o p).result = some 1 ∧
      (remove_symlink true o p).deleted = 1) ∧
    (∀ (coe : Bool) (t : FsNode),
      (fast_remove true coe o t p).effects = []) := by
  refine ⟨?_, ?_, ?_, ?_, ?_, ?_⟩
  · simp [delete_file]
  · simp [delete_symlink]
  · intro attempt
    simp [delete_empty_dir]
  · simp [remove_file]
  · simp [remove_symlink]
  · intro coe t
    exact fast_remove_dry_effects coe o t p

/-! ## Summary and exit status (`src/results.rs`, `src/main.rs`)

The orchestrator runs `fast_remove` on every sanitized root, pairs each root
with its result, folds them into `(total_items, total_errors)` via
`process_results` (one error per failed root), and exits via
`print_summary_and_exit` with status `1` iff `total_errors > 0`.  The
ProgressCore `errors` counter is displayed but never consulted for the exit
status. -/

/-- One accumulation step of `process_results`. -/
def resultStep (acc : Nat × Nat) (r : Option Nat) : Nat × Nat :=
  match r with
  | some k => (acc.1 + k, acc.2)
  | none => (acc.1, acc.2 + 1)

/-- Embedding of `process_results` (`src/results.rs`): fold the per-root
results into `(total_items, total_errors)`. -/
def process_results (results : List (Option Nat)) : Nat × Nat :=
  results.foldl resultStep (0, 0)

/-- Exit status produced by `print_summary_and_exit` (`src/results.rs`):
`1` iff `total_errors > 0` (the printed summary is not modelled). -/
def print_summary_and_exit (total_errors : Nat) : Nat :=
  if 0 < total_errors then 1 else 0

/-- Per-root results of the whole run, in root order. -/
def main_results (dryRun coe : Bool) (o : FsOracle)
    (roots : List (FsNode × Path)) : List (Option Nat) :=
  roots.map (fun r => (fast_remove dryRun coe o r.1 r.2).result)

/-- Total of the errors recorded in ProgressCore over the whole run. -/
def recorded_errors (dryRun coe : Bool) (o : FsOracle)
    (roots : List (FsNode × Path)) : Nat :=
  (roots.map (fun r => (fast_remove dryRun coe o r.1 r.2).errors)).sum

/-- The exit status of the whole run. -/
def main_exit_code (dryRun coe : Bool) (o : FsOracle)
    (roots : List (FsNode × Path)) : Nat :=
  print_summary_and_exit (process_results
    (main_results dryRun coe o roots)).2

/-- Number of failed entries among the per-root results. -/
def countNone : List (Option Nat) → Nat
  | [] => 0
  | some _ :: rs => countNone rs
  | none :: rs => countNone rs + 1

theorem foldl_resultStep_snd : ∀ (rs : List (Option Nat)) (acc : Nat × Nat),
    (rs.foldl resultStep acc).2 = acc.2 + countNone rs
  | [], acc => by simp [countNone]
  | some k :: rs, acc => by
    rw [List.foldl_cons, foldl_resultStep_snd rs]
    simp [resultStep, countNone]
  | none :: rs, acc => by
    rw [List.foldl_cons, foldl_resultStep_snd rs]
    simp [resultStep, countNone]
    omega

theorem countNone_eq_zero {rs : List (Option Nat)} :
    countNone rs = 0 ↔ ∀ r ∈ rs, r ≠ none := by
  induction rs with
  | nil => simp [countNone]
  | cons r rest ih =>
    cases r with
    | some k =>
      rw [countNone, ih]
      constructor
      · intro h x hx
        rcases List.mem_cons.mp hx with rfl | hx2
        · simp
        · exact h x hx2
      · intro h x hx
        exact h x (List.mem_cons_of_mem _ hx)
    | none =>
      simp only [countNone]
      constructor
      · intro h
        omega
      · intro h
        exact absurd rfl (h none (List.mem_cons_self _ _))

/--
C3 counterexample: a run (no dry-run, `continue_on_error` set, every syscall
succeeding) on the single root `d` whose directory iterator yields one
entry error records one ProgressCore error (`DirEntryFailed`), yet the root
removal still returns `Ok`, `process_results` counts zero errors, and the
process exits with status 0 — refuting "exit 0 iff zero errors recorded".
-/
theorem exit_code_counterexample :
    recorded_errors false true
      (FsOracle.mk (fun _ => true) (fun _ => true))
      [(.dir "d" (.cons .entryErr .nil), ["d"])] = 1 ∧
    main_exit_code false true
      (FsOracle.mk (fun _ => true) (fun _ => true))
      [(.dir "d" (.cons .entryErr .nil), ["d"])] = 0 := by
  decide

/--
C3 amended: for every run that gets past initialization, the exit status is
0 iff every root removal returned `Ok` — i.e. iff `process_results` counted
zero root-level failures.  Errors recorded in ProgressCore do not determine
the exit status: per-item errors swallowed under `continue_on_error` leave
the status 0 when the root still succeeds, and a failed root (e.g. a
metadata failure, which records nothing in ProgressCore) exits 1 with zero
recorded errors.
-/
theorem exit_status_iff_roots_ok (dryRun coe : Bool) (o : FsOracle)
    (roots : List (FsNode × Path)) :
    main_exit_code dryRun coe o roots = 0 ↔
      ∀ r ∈ roots, (fast_remove dryRun coe o r.1 r.2).result ≠ none := by
  unfold main_exit_code print_summary_and_exit process_results
  rw [foldl_resultStep_snd]
  simp only [Nat.zero_add]
  constructor
  · intro h
    have hz : countNone (main_results dryRun coe o roots) = 0 := by
      by_contra hc
      simp [Nat.pos_of_ne_zero hc] at h
    have hall := countNone_eq_zero.mp hz
    intro r hr hnone
    exact hall none (by
      unfold main_results
      exact hnone ▸ List.mem_map_of_mem _ hr) rfl
  · intro h
    have hz : countNone (main_results dryRun coe o roots) = 0 := by
      apply countNone_eq_zero.mpr
      intro x hx
      unfold main_results at hx
      obtain ⟨r, hr, rfl⟩ := List.mem_map.mp hx
      exact h r hr
    simp [hz]

/-- Witness for the amended C3 theorem: a run on one regular file with a
successful unlink exits with status 0. -/
theorem exit_status_iff_roots_ok_witness :
    main_exit_code false false
      (FsOracle.mk (fun _ => true) (fun _ => true))
      [(.file "f", ["f"])] = 0 :=
  (exit_status_iff_roots_ok false false
      (FsOracle.mk (fun _ => true) (fun _ => true))
      [(.file "f", ["f"])]).mpr (by decide)

/--
C6 counterexample: on a disconnected queue, `send` and `try_send` fail, yet
`enqueued_total` is still incremented, so `depth()` grows and `is_empty()`
turns false — refuting the claim that a failed send leaves the counters,
`depth()` and `is_empty()` unchanged.
-/
theorem queue_send_failure_counterexample :
    ((AdaptiveQueue.mk [] 10 true 0 0).send (.File ["a"])).2 = false ∧
    ((AdaptiveQueue.mk [] 10 true 0 0).send (.File ["a"])).1.enqueued = 1 ∧
    ((AdaptiveQueue.mk [] 10 true 0 0).send (.File ["a"])).1.depth = 1 ∧
    ((AdaptiveQueue.mk [] 10 true 0 0).send
      (.File ["a"])).1.is_empty = false ∧
    ((AdaptiveQueue.mk [] 10 true 0 0).try_send (.File ["a"])).2 = false ∧
    ((AdaptiveQueue.mk [] 10 true 0 0).try_send
      (.File ["a"])).1.enqueued = 1 := by
  decide

/--
C6 amended: `dequeued_total` is incremented exactly on successful receives
(an unsuccessful receive leaves the state untouched), but `enqueued_total` is
incremented on every `send`/`try_send` attempt — successful or not — because
the source bumps the counter before handing the job to the channel; a failed
send therefore still increases `depth()` by one.
-/
theorem queue_counter_discipline (q : AdaptiveQueue) (job : FileJob) :
    ((q.send job).1.enqueued = q.enqueued + 1 ∧
      (q.try_send job).1.enqueued = q.enqueued + 1) ∧
    ((q.send job).1.dequeued = q.dequeued ∧
      (q.try_send job).1.dequeued = q.dequeued) ∧
    ((q.send job).1.buffer =
      (if q.closed then q.buffer else q.buffer ++ [job])) ∧
    (q.recv_timeout.1.enqueued = q.enqueued ∧
      q.recv_timeout.1.dequeued =
        (if q.buffer.isEmpty then q.dequeued else q.dequeued + 1)) ∧
    (q.recv_timeout.2.isSome = !q.buffer.isEmpty) ∧
    (q.try_recv.1.dequeued =
      (if q.buffer.isEmpty then q.dequeued else q.dequeued + 1)) := by
  obtain ⟨buf, cap, cl, enq, deq⟩ := q
  cases cl <;> cases buf <;>
    simp [AdaptiveQueue.send, AdaptiveQueue.try_send,
      AdaptiveQueue.recv_timeout, AdaptiveQueue.try_recv] <;>
    split <;> simp

end FastRm
